import Mathlib

/-!
Verification of the Spack ASP-based concretizer core
(`lib/spack/spack/solver/asp.py`) against its natural-language
specification.  The Python code is shallowly embedded: pure helpers become
Lean functions, the stateful clingo driver becomes explicit state passing
over a `DriverState` record, and fallible code returns `Except`.

The version data type (`spack.version.Version`) lives outside the provided
sources, so it is modelled from the specification where claims depend on it;
each such definition carries a doc comment starting `Modelled from the
spec:`.
-/

namespace SpackAsp

/- ============================================================ -/
/- Versions (spack.version is not under src/)                    -/
/- ============================================================ -/

/-- Modelled from the spec: a component of a version identifier is either
numeric or a string; "numeric > non-numeric; else lexicographic per
component" (spec §4.3.2). `spack.version.Version` itself is not under
src/. -/
inductive VersionComponent where
  | num (n : Nat)
  | alpha (s : String)
deriving DecidableEq

/-- Modelled from the spec: a version is a develop flag plus an ordered list
of components; "develop > anything numeric" (spec §4.3.2, §3). -/
structure SpkVersion where
  develop : Bool
  components : List VersionComponent
deriving DecidableEq

def componentStr : VersionComponent → String
  | .num n => toString n
  | .alpha s => s

def versionStr (v : SpkVersion) : String :=
  if v.develop then "develop"
  else String.intercalate "." (v.components.map componentStr)

/-- Modelled from the spec: a version-range constraint as it occurs in the
recorded `(pkg, range)` pairs.  The only range form the claims exercise is a
single version literal `@x.y`, which a possible version may match exactly or
satisfy with additional trailing components ("a variable number of numbers
e.g. if both 1.0 and 1.0.2 are possible versions", asp.py:1391-1392). -/
structure VersionConstraint where
  base : SpkVersion
deriving DecidableEq

/-- Modelled from the spec: `Version.satisfies` for a single-version range
is component-prefix satisfaction, so that both `1.0` and `1.0.2` satisfy the
range `1.0` (asp.py:1391-1392, spec §4.3.2). -/
def vSatisfies (v : SpkVersion) (c : VersionConstraint) : Bool :=
  v.develop == c.base.develop && c.base.components.isPrefixOf v.components

def rangeStr (c : VersionConstraint) : String := versionStr c.base

/- ============================================================ -/
/- Term model (asp.py: AspFunction, AspAnd, AspOneOf, _id)       -/
/- ============================================================ -/

/-- An argument of an ASP functor.  In the Python code arguments are raw
Python values (strings, ints, bools, `Version` objects, version ranges);
they are only rendered to text by `_id` / `str`. -/
inductive AspArg where
  | str (s : String)
  | num (n : Int)
  | boolv (b : Bool)
  | ver (v : SpkVersion)
  | vrange (c : VersionConstraint)
deriving DecidableEq

/-- asp.py `_id`: quote strings and booleans, leave integers bare. -/
def aspId : AspArg → String
  | .str s => "\"" ++ s ++ "\""
  | .num n => toString n
  | .boolv b => "\"" ++ (cond b "True" "False") ++ "\""
  | .ver v => "\"" ++ versionStr v ++ "\""
  | .vrange c => "\"" ++ rangeStr c ++ "\""

/-- asp.py `AspFunction`, by its structural content (name and argument
list).  This is the value that `symbol()` round-trips to the clingo backend
symbol type. -/
structure AspFunction where
  name : String
  args : List AspArg
deriving DecidableEq

/-- `AspFunction.__str__`: `name(arg1, ..., argN)`. -/
def AspFunction.str (f : AspFunction) : String :=
  f.name ++ "(" ++ String.intercalate ", " (f.args.map aspId) ++ ")"

/-- `AspAnd.__str__`: comma-joined conjunction. -/
def andStr (args : List AspFunction) : String :=
  String.intercalate ", " (args.map AspFunction.str)

/-- `AspOneOf.__str__`: `1 { a; b; c } 1` (choice of exactly one). -/
def oneOfStr (args : List AspFunction) : String :=
  "1 \x7b " ++ String.intercalate "; " (args.map AspFunction.str) ++ " \x7d 1"

/- ============================================================ -/
/- Python object identity layer for AspFunction (claim C9)       -/
/- ============================================================ -/

/-- An `AspFunction` instance as a Python heap object: `objId` is the
object's identity (`id()`).  The class defines neither `__eq__` nor
`__hash__` nor `__lt__` (asp.py:112-140), so the interpreter's defaults
apply. -/
structure AspFunctionObj where
  objId : Nat
  name : String
  args : List AspArg
deriving DecidableEq

/-- Python `==` on `AspFunction` instances: the class defines no `__eq__`,
so the default object-identity comparison applies. -/
def pyEq (a b : AspFunctionObj) : Bool := a.objId == b.objId

/-- Python `hash()` on `AspFunction` instances: the class defines no
`__hash__`, so the default identity-derived hash applies. -/
def pyHash (a : AspFunctionObj) : Nat := a.objId

/-- The structural content of an `AspFunction` object, which is what
stringification and `symbol()` depend on. -/
def AspFunctionObj.toAspFunction (a : AspFunctionObj) : AspFunction :=
  ⟨a.name, a.args⟩

/- ============================================================ -/
/- Version preference key (SpackSolverSetup.pkg_version_rules)   -/
/- ============================================================ -/

/-- Order-embedding of a version component used to compare components:
numeric components beat string components, numeric compare by value,
strings lexicographically. -/
def compKey : VersionComponent → Bool ×ₗ Nat ×ₗ String
  | .num n => toLex (true, toLex (n, ""))
  | .alpha s => toLex (false, toLex (0, s))

/-- Order-embedding of a version under the raw version order: develop
beats everything, then components lexicographically. -/
def versionKey (v : SpkVersion) : Bool ×ₗ List (Bool ×ₗ Nat ×ₗ String) :=
  toLex (v.develop, v.components.map compKey)

/-- `priority = dict((v, i) for i, v in enumerate(version_prefs))` followed
by `priority.get(v, 0)`: the index of `v` in the packages.yaml version list
(last occurrence wins, as in a dict comprehension), defaulting to 0. -/
def vprio (prefs : List SpkVersion) (v : SpkVersion) : Nat :=
  prefs.enum.foldl (fun acc p => if p.2 = v then p.1 else acc) 0

/-- The per-package inputs of `pkg_version_rules`: the packages.yaml
version preference list, the set of versions carrying `preferred=True`
in the package descriptor, and `self.possible_versions[pkg.name]`. -/
structure PackageVersionData where
  prefs : List SpkVersion
  preferredSet : List SpkVersion
  possible : List SpkVersion

/-- The composite sort key of `pkg_version_rules` (asp.py:727-745):
`(-priority.get(v, 0), preferred-flag, not v.isdevelop(), v)`, compared
lexicographically. -/
def keyfn (pd : PackageVersionData) (v : SpkVersion) :
    Int ×ₗ Bool ×ₗ Bool ×ₗ (Bool ×ₗ List (Bool ×ₗ Nat ×ₗ String)) :=
  toLex (-(vprio pd.prefs v : Int),
    toLex (decide (v ∈ pd.preferredSet), toLex (!v.develop, versionKey v)))

/-- The fact `version_declared(pkg, v, i)`. -/
def version_declared (pkgName : String) (v : SpkVersion) (i : Nat) : AspFunction :=
  ⟨"version_declared", [.str pkgName, .ver v, .num i]⟩

/-- `SpackSolverSetup.pkg_version_rules` (asp.py:708-752): sort the possible
versions by the composite key, descending and stable (`sorted(...,
reverse=True)` modelled by a stable insertion sort under the reversed
comparator), and emit `version_declared(pkg, v, i)` with `i` the rank. -/
def pkg_version_rules (pkgName : String) (pd : PackageVersionData) : List AspFunction :=
  let mostToLeastPreferred :=
    List.insertionSort (fun a b => keyfn pd b ≤ keyfn pd a) pd.possible
  mostToLeastPreferred.enum.map fun p => version_declared pkgName p.2 p.1

/- ============================================================ -/
/- Driver state (PyclingoDriver)                                 -/
/- ============================================================ -/

/-- A ground rule handed to `backend.add_rule`: head atoms, positive and
default-negated body atoms, and the choice flag.  `add_atom` is injective
per symbol, so rules are recorded over symbols directly. -/
structure BackendRule where
  head : List AspFunction
  bodyPos : List AspFunction
  bodyNeg : List AspFunction
  choice : Bool
deriving DecidableEq

/-- A weight rule handed to `backend.add_weight_rule`: head atoms, lower
bound, weighted body atoms. -/
structure WeightRule where
  head : List AspFunction
  lower : Nat
  body : List (AspFunction × Nat)
deriving DecidableEq

/-- The observable state of a `PyclingoDriver`: the `cores` flag, the text
written to `self.out`, and everything added to the clingo backend. -/
structure DriverState where
  cores : Bool
  output : List String
  atoms : List AspFunction
  rules : List BackendRule
  weightRules : List WeightRule
  assumptions : List AspFunction
deriving DecidableEq

/-- `PyclingoDriver._register_rule_for_cores` (asp.py:486-496): when core
reporting is on, add a choice atom `rule("<rule text>")`, assume it, and
return it for inclusion in the rule body. -/
def registerRuleForCores (ruleStr : String) (s : DriverState) :
    List AspFunction × DriverState :=
  if s.cores then
    let ruleAtom : AspFunction := ⟨"rule", [.str ruleStr]⟩
    ([ruleAtom],
     { s with
        atoms := s.atoms ++ [ruleAtom]
        rules := s.rules ++ [⟨[ruleAtom], [], [], true⟩]
        assumptions := s.assumptions ++ [ruleAtom] })
  else ([], s)

/-- The textual form of an integrity constraint (asp.py:553-559): the
comma-joined positive clauses, then the `not `-prefixed negated ones. -/
def integrityRuleStr (clauses defaultNegated : List AspFunction) : String :=
  let posStr := String.intercalate "," (clauses.map AspFunction.str)
  let symbolsStr :=
    if defaultNegated.isEmpty then posStr
    else posStr ++ "," ++
      String.intercalate "," (defaultNegated.map fun a => "not " ++ a.str)
  ":- " ++ symbolsStr ++ "."

/-- `PyclingoDriver.integrity_constraint` (asp.py:538-569): forbid the
conjunction of `clauses`, with `defaultNegated` clauses appearing under
default negation, tagged with a core-tracking rule atom when enabled. -/
def integrity_constraint (clauses defaultNegated : List AspFunction)
    (s0 : DriverState) : DriverState :=
  let s1 := { s0 with atoms := s0.atoms ++ clauses ++ defaultNegated }
  let ruleStr := integrityRuleStr clauses defaultNegated
  let p := registerRuleForCores ruleStr s1
  { p.2 with
      output := p.2.output ++ [ruleStr ++ "\n"]
      rules := p.2.rules ++ [⟨[], clauses ++ p.1, defaultNegated, false⟩] }

/-- `PyclingoDriver.one_of_iff` (asp.py:575-599): encode
`head ↔ exactly-one-of alternatives` through the derived cardinality atoms
`at_least_1(...)` and `more_than_1(...)` and two weight rules; with no
alternatives it returns immediately. -/
def one_of_iff (head : AspFunction) (versions : List AspFunction)
    (s : DriverState) : DriverState :=
  if versions.isEmpty then s
  else
    let line1 := head.str ++ " :- " ++ oneOfStr versions ++ ".\n"
    let line2 := oneOfStr versions ++ " :- " ++ head.str ++ ".\n"
    let atLeast1 : AspFunction := ⟨"at_least_1", head.args⟩
    let moreThan1 : AspFunction := ⟨"more_than_1", head.args⟩
    { s with
        output := s.output ++ [line1, line2]
        atoms := s.atoms ++ [atLeast1, moreThan1] ++ versions ++ [head]
        weightRules := s.weightRules ++
          [⟨[atLeast1], 1, versions.map fun v => (v, 1)⟩,
           ⟨[moreThan1], 2, versions.map fun v => (v, 1)⟩]
        rules := s.rules ++
          [⟨[head], [atLeast1], [moreThan1], false⟩,
           ⟨[], [head, moreThan1], [], false⟩,
           ⟨[], [head], [atLeast1], false⟩] }

/- ============================================================ -/
/- Version constraints (define_version_constraints)              -/
/- ============================================================ -/

/-- The allowed-version list of `define_version_constraints`
(asp.py:1382-1399): possible versions satisfying the range, restricted to
the exact matches when any exist. -/
def restrictedAllowed (possible : List SpkVersion) (c : VersionConstraint) :
    List SpkVersion :=
  if ((possible.filter fun v => vSatisfies v c).filter fun v => v == c.base).isEmpty
  then possible.filter fun v => vSatisfies v c
  else (possible.filter fun v => vSatisfies v c).filter fun v => v == c.base

/-- One iteration of the loop in `define_version_constraints`
(asp.py:1384-1409): skip when the allowed list is as long as the possible
set, otherwise emit the `one_of_iff` equivalence followed by a newline. -/
def version_constraint_step (possible : String → List SpkVersion)
    (pkgName : String) (c : VersionConstraint) (s : DriverState) : DriverState :=
  let allowed := restrictedAllowed (possible pkgName) c
  if allowed.length == (possible pkgName).length then s
  else
    let predicates := allowed.map fun v =>
      (⟨"version", [.str pkgName, .ver v]⟩ : AspFunction)
    let s1 := one_of_iff ⟨"version_satisfies", [.str pkgName, .vrange c]⟩
      predicates s
    { s1 with output := s1.output ++ ["\n"] }

/-- `SpackSolverSetup.define_version_constraints` (asp.py:1382-1409) over
the recorded `(pkg, range)` constraints, taken in their sorted iteration
order. -/
def define_version_constraints (possible : String → List SpkVersion)
    (constraints : List (String × VersionConstraint)) (s : DriverState) :
    DriverState :=
  constraints.foldl (fun s pc => version_constraint_step possible pc.1 pc.2 s) s

/- ============================================================ -/
/- Solver session configuration (claim C3)                       -/
/- ============================================================ -/

/-- The clingo control options set by `PyclingoDriver.solve`
(asp.py:608-614). -/
structure ClingoControlConfig where
  models : Int
  trans_ext : String
  eqLevel : String
  searchConfig : String
  parallel_mode : String
  opt_strategy : String
deriving DecidableEq

/-- `PyclingoDriver.solve` session initialization (asp.py:608-614). -/
def pyclingoControlConfig (nmodels : Int) : ClingoControlConfig :=
  { models := nmodels
    trans_ext := "all"
    eqLevel := "5"
    searchConfig := "tweety"
    parallel_mode := "2"
    opt_strategy := "usc,one" }

/-- The command-line arguments `ClingoDriver.solve` passes to the external
`clingo` executable (asp.py:357-369). -/
def clingoDriverArgs (models : Int) : List String :=
  ["--models=" ++ toString models, "--outf=1", "--opt-strategy=bb,hier"]

/- ============================================================ -/
/- Unsat result construction (claim C4)                          -/
/- ============================================================ -/

/-- An element of a rendered core: either the registered rule's text or a
surviving non-rule atom. -/
inductive CoreElem where
  | ruleText (s : String)
  | atom (f : AspFunction)
deriving DecidableEq

/-- Rendering of one core atom (asp.py:673-677): an atom named `rule` is
replaced by its rule-text string argument (`sym.arguments[0].string`, which
fails on a malformed atom), every other atom survives unchanged. -/
def core_atom_rendered (sym : AspFunction) : Except String CoreElem :=
  if sym.name = "rule" then
    match sym.args with
    | AspArg.str s :: _ => .ok (.ruleText s)
    | _ => .error "RuntimeError: symbol argument is not a string"
  else .ok (.atom sym)

/-- Rendering of one unsat core (asp.py:671-678). -/
def render_core (core : List AspFunction) : Except String (List CoreElem) :=
  core.mapM core_atom_rendered

/-- The fields of `Result` that the unsatisfiable path populates. -/
structure SolveResultModel where
  satisfiable : Bool
  cores : List (List CoreElem)
deriving DecidableEq

/-- The unsatisfiable tail of `PyclingoDriver.solve` (asp.py:651-678):
record `satisfiable = False` and render each collected core; no exception
is raised. -/
def build_unsat_result (cores : List (List AspFunction)) :
    Except String SolveResultModel := do
  let rendered ← cores.mapM render_core
  pure ⟨false, rendered⟩

/- ============================================================ -/
/- Conflicts (SpackSolverSetup.conflict_rules, claim C5)         -/
/- ============================================================ -/

/-- The atom `external(pkg)`. -/
def external_fn (pkgName : String) : AspFunction :=
  ⟨"external", [.str pkgName]⟩

/-- `SpackSolverSetup.conflict_rules` (asp.py:779-799).  The body clauses
come from `self.spec_clauses(s, body=True)` over the traversal of
`Spec(pkg)` constrained by the constraint and then by the trigger; the
`Spec` constrain/traverse machinery (spack.spec) is not under src/, so the
clause list each `(constraint, trigger)` pair produces is supplied by the
`bodyClauses` parameter.  The claim-relevant processing — filtering out
`node_compiler_hard` clauses and adding `external(pkg)` under default
negation — is translated from the source. -/
def conflictClauses (bodyClauses : String → String → List AspFunction)
    (constraint trigger : String) : List AspFunction :=
  (bodyClauses constraint trigger).filter fun x =>
    decide (x.name ∉ (["node_compiler_hard"] : List String))

def conflict_rules (pkgName : String)
    (conflicts : List (String × List String))
    (bodyClauses : String → String → List AspFunction)
    (s : DriverState) : DriverState :=
  conflicts.foldl (fun s tc =>
    tc.2.foldl (fun s constraint =>
      integrity_constraint (conflictClauses bodyClauses constraint tc.1)
        [external_fn pkgName] s) s) s

/- ============================================================ -/
/- Spec builder (SpecBuilder, claims C6 and C7)                  -/
/- ============================================================ -/

/-- A model function tuple `(functor name, stringified arguments)` as
produced for `SpecBuilder.build_specs`. -/
structure FnTuple where
  name : String
  args : List String
deriving DecidableEq

/-- The sort key of `build_specs` (asp.py:1778-1781):
`{"node": -2, "node_compiler": -1}.get(name, 0)`. -/
def specBuilderSortKey (t : FnTuple) : Int :=
  if t.name = "node" then -2 else if t.name = "node_compiler" then -1 else 0

/-- `function_tuples.sort(key=...)` (asp.py:1778-1781): Python's stable
sort, modelled by a stable insertion sort under the same key. -/
def build_specs_sorted (ts : List FnTuple) : List FnTuple :=
  List.insertionSort (fun a b => specBuilderSortKey a ≤ specBuilderSortKey b) ts

/-- Architecture fields of a spec under construction
(`spack.spec.ArchSpec`). -/
structure ArchData where
  platform : Option String := none
  osName : Option String := none
  target : Option String := none
deriving DecidableEq

/-- A spec under construction by the `SpecBuilder` handlers. -/
structure SpecData where
  versions : Option String := none
  arch : ArchData := {}
  compilerName : Option String := none
  compilerVersion : Option String := none
  variants : List (String × List String) := []
  compilerFlags : List (String × List String) := []
  externalIdx : Option Nat := none
  deps : List (String × List String) := []
deriving DecidableEq

/-- The mutable state of a `SpecBuilder` during the `build_specs` loop:
`self._specs` (an insertion-ordered dict), `self._flag_compiler_defaults`
and `self._flag_sources`. -/
structure BuilderState where
  specs : List (String × SpecData) := []
  flagCompilerDefaults : List String := []
  flagSources : List (String × List String) := []
deriving DecidableEq

/-- Association-list lookup standing for Python dict indexing. -/
def lookupSpec (s : BuilderState) (pkg : String) : Option SpecData :=
  (s.specs.find? fun p => p.1 == pkg).map Prod.snd

/-- Replace the value bound to `pkg` (which must be present). -/
def setSpec (s : BuilderState) (pkg : String) (d : SpecData) : BuilderState :=
  { s with specs := s.specs.map fun p => if p.1 == pkg then (pkg, d) else p }

/-- `self._specs[pkg]` access followed by a field update; raises `KeyError`
when the spec was never created. -/
def updateSpec (s : BuilderState) (pkg : String) (f : SpecData → SpecData) :
    Except String BuilderState :=
  match lookupSpec s pkg with
  | none => .error "KeyError"
  | some d => .ok (setSpec s pkg (f d))

/-- Update one entry of an association list, inserting a default when
missing (Python `dict.setdefault` followed by mutation). -/
def updateAssoc (l : List (String × List String)) (k : String)
    (f : List String → List String) : List (String × List String) :=
  if l.any fun p => p.1 == k then
    l.map fun p => if p.1 == k then (k, f p.2) else p
  else l ++ [(k, f [])]

/-- The action methods of `SpecBuilder` dispatched from `build_specs`
(asp.py:1634-1723), each taking the stringified argument list; an argument
list that does not match the method's signature raises `TypeError`. -/
def specBuilderAction (name : String) :
    Option (List String → BuilderState → Except String BuilderState) :=
  if name = "node" then some fun args s =>
    match args with
    | [pkg] =>
      .ok (if (s.specs.any fun p => p.1 == pkg) then s
           else { s with specs := s.specs ++ [(pkg, {})] })
    | _ => .error "TypeError"
  else if name = "node_platform" then some fun args s =>
    match args with
    | [pkg, pl] => updateSpec s pkg fun d =>
        { d with arch := { d.arch with platform := some pl } }
    | _ => .error "TypeError"
  else if name = "node_os" then some fun args s =>
    match args with
    | [pkg, o] => updateSpec s pkg fun d =>
        { d with arch := { d.arch with osName := some o } }
    | _ => .error "TypeError"
  else if name = "node_target" then some fun args s =>
    match args with
    | [pkg, t] => updateSpec s pkg fun d =>
        { d with arch := { d.arch with target := some t } }
    | _ => .error "TypeError"
  else if name = "variant_value" then some fun args s =>
    match args with
    | [pkg, vname, value] => updateSpec s pkg fun d =>
        if vname = "dev_path" ∨ vname = "patches" then
          -- setdefault: keep an existing value, otherwise create one
          if d.variants.any fun p => p.1 == vname then d
          else { d with variants := d.variants ++ [(vname, [value])] }
        else
          -- existing variant: multi-valued append; otherwise create it
          -- (variant construction via the package class is abstracted to
          -- a fresh single-element value list)
          { d with variants := updateAssoc d.variants vname fun vs => vs ++ [value] }
    | _ => .error "TypeError"
  else if name = "version" then some fun args s =>
    match args with
    | [pkg, v] => updateSpec s pkg fun d => { d with versions := some v }
    | _ => .error "TypeError"
  else if name = "node_compiler" then some fun args s =>
    match args with
    | [pkg, c] => updateSpec s pkg fun d =>
        -- `self._specs[pkg].compiler = CompilerSpec(compiler)` replaces the
        -- whole compiler spec, so any version set earlier is discarded
        { d with compilerName := some c, compilerVersion := none }
    | _ => .error "TypeError"
  else if name = "node_compiler_version" then some fun args s =>
    match args with
    | [pkg, _c, v] => updateSpec s pkg fun d => { d with compilerVersion := some v }
    | _ => .error "TypeError"
  else if name = "node_flag_compiler_default" then some fun args s =>
    match args with
    | [pkg] =>
      .ok (if pkg ∈ s.flagCompilerDefaults then s
           else { s with flagCompilerDefaults := s.flagCompilerDefaults ++ [pkg] })
    | _ => .error "TypeError"
  else if name = "node_flag" then some fun args s =>
    match args with
    | [pkg, ftype, flag] => updateSpec s pkg fun d =>
        { d with compilerFlags := updateAssoc d.compilerFlags ftype fun fs => fs ++ [flag] }
    | _ => .error "TypeError"
  else if name = "node_flag_source" then some fun args s =>
    match args with
    | [pkg, source] =>
      .ok { s with flagSources :=
              if s.flagSources.any fun p => p.1 == pkg then
                s.flagSources.map fun p =>
                  if p.1 == pkg then
                    (pkg, if source ∈ p.2 then p.2 else p.2 ++ [source])
                  else p
              else s.flagSources ++ [(pkg, [source])] }
    | _ => .error "TypeError"
  else if name = "no_flags" then some fun args s =>
    match args with
    | [pkg, ftype] => updateSpec s pkg fun d =>
        { d with compilerFlags := updateAssoc d.compilerFlags ftype fun _ => [] }
    | _ => .error "TypeError"
  else if name = "external_spec" then some fun args s =>
    match args with
    | [pkg, idx] =>
      match idx.toNat? with
      | some n => updateSpec s pkg fun d => { d with externalIdx := some n }
      | none => .error "ValueError"
    | _ => .error "TypeError"
  else if name = "depends_on" then some fun args s =>
    match args with
    | [pkg, dep, dtype] =>
      match lookupSpec s dep with
      | none => .error "KeyError"
      | some _ => updateSpec s pkg fun d =>
          { d with deps :=
              if d.deps.any fun p => p.1 == dep then
                d.deps.map fun p =>
                  if p.1 == dep then
                    (dep, if dtype ∈ p.2 then p.2 else p.2 ++ [dtype])
                  else p
              else d.deps ++ [(dep, [dtype])] }
    | _ => .error "TypeError"
  else none

/-- The action-method names dispatched by `build_specs`. -/
def specBuilderActionNames : List String :=
  ["node", "node_platform", "node_os", "node_target", "variant_value",
   "version", "node_compiler", "node_compiler_version",
   "node_flag_compiler_default", "node_flag", "node_flag_source",
   "no_flags", "external_spec", "depends_on"]

/-- The remaining attributes of `SpecBuilder` that `getattr` can find. -/
def specBuilderOtherAttrs : List String :=
  ["_arch", "reorder_flags", "build_specs", "_command_line_specs",
   "_flag_sources", "_flag_compiler_defaults", "_specs", "_result"]

/-- One iteration of the `build_specs` loop (asp.py:1784-1794):
`action = getattr(self, name, None)`; a falsy lookup is logged with
`tty.debug` and skipped, a callable attribute is invoked.  Tuples naming a
truthy non-action attribute fail the source's callable assertion and are
modelled as errors; `_result` is `None` during the loop and is skipped like
an unknown functor. -/
def build_specs_step (s : BuilderState) (t : FnTuple) :
    Except String BuilderState :=
  match specBuilderAction t.name with
  | some h => h t.args s
  | none =>
    if t.name ∈ specBuilderOtherAttrs then
      if t.name = "_result" then .ok s else .error "AssertionError"
    else .ok s

/-- The tuple-processing phase of `SpecBuilder.build_specs`
(asp.py:1774-1794): sort the tuples by the priority key, then fold the
dispatch over them.  The post-construction passes (namespace assignment,
flag reordering, patch injection, ...) follow in the source and are outside
this loop. -/
def build_specs (ts : List FnTuple) (s0 : BuilderState) :
    Except String BuilderState :=
  (build_specs_sorted ts).foldlM build_specs_step s0

/- ============================================================ -/
/- Compiler flag lists (claim C8)                                -/
/- ============================================================ -/

/-- `extend_flag_list` (asp.py:175-186): append each new flag, first
removing it (Python `list.remove`: first occurrence) when already
present so it moves to the end. -/
def extend_flag_list (flagList newFlags : List String) : List String :=
  newFlags.foldl (fun acc flag =>
    (if flag ∈ acc then acc.erase flag else acc) ++ [flag]) flagList

/- ============================================================ -/
/- Theorems                                                      -/
/- ============================================================ -/

/-- C10: for every head term, calling `one_of_iff` with an empty
alternatives list is a complete no-op: the driver state — output stream,
backend atoms, rules and weight rules — is returned unchanged, leaving the
head unconstrained. -/
theorem one_of_iff_empty_is_noop (head : AspFunction) (s : DriverState) :
    one_of_iff head [] s = s := rfl

/-- C3 counterexample: `ClingoDriver.solve` passes the optimization
strategy `bb,hier` to the external clingo process, not `usc,one`, so the
claimed settings are not the defaults of both driver implementations. -/
theorem solver_config_counterexample :
    "--opt-strategy=bb,hier" ∈ clingoDriverArgs 0 ∧
    "--opt-strategy=usc,one" ∉ clingoDriverArgs 0 ∧
    (pyclingoControlConfig 0).opt_strategy = "usc,one" := by decide

/-- C3 amended: only `PyclingoDriver.solve` initializes its session with
the claimed tuned settings — model count as requested, extended translation
`all`, equality-propagation level `5`, the `tweety` search configuration,
parallel mode with two threads, and optimization strategy `usc,one` —
while `ClingoDriver.solve` passes just the model count, the competition
output format, and the `bb,hier` optimization strategy. -/
theorem solver_session_defaults (n m : Int) :
    pyclingoControlConfig n =
      { models := n, trans_ext := "all", eqLevel := "5",
        searchConfig := "tweety", parallel_mode := "2",
        opt_strategy := "usc,one" } ∧
    clingoDriverArgs m =
      ["--models=" ++ toString m, "--outf=1", "--opt-strategy=bb,hier"] ∧
    (pyclingoControlConfig n).opt_strategy ∉ clingoDriverArgs m := by
  refine ⟨rfl, rfl, ?_⟩
  intro hmem
  simp only [pyclingoControlConfig, clingoDriverArgs] at hmem
  rcases List.mem_cons.mp hmem with h | hmem
  · have hlen := congrArg String.length h
    rw [String.length_append] at hlen
    have h1 : "usc,one".length = 7 := rfl
    have h2 : "--models=".length = 9 := rfl
    omega
  · rcases List.mem_cons.mp hmem with h | hmem
    · exact absurd h (by decide)
    · rcases List.mem_cons.mp hmem with h | h
      · exact absurd h (by decide)
      · simp at h

/-- C9 counterexample: two `AspFunction` objects built from the same
functor name and structurally equal argument lists are not equal under
Python `==` — the class defines no `__eq__`, so identity comparison
applies. -/
theorem term_value_semantics_counterexample :
    (⟨0, "version", [.str "mpich"]⟩ : AspFunctionObj).name =
      (⟨1, "version", [.str "mpich"]⟩ : AspFunctionObj).name ∧
    (⟨0, "version", [.str "mpich"]⟩ : AspFunctionObj).args =
      (⟨1, "version", [.str "mpich"]⟩ : AspFunctionObj).args ∧
    pyEq ⟨0, "version", [.str "mpich"]⟩ ⟨1, "version", [.str "mpich"]⟩ = false := by
  decide

/-- C9 amended: `AspFunction` terms are compared and hashed by object
identity (the class defines neither `__eq__` nor `__hash__` nor `__lt__`),
with hashing consistent with that identity equality; only their
stringified form — the text written to the program and registered in
cores — is structural: objects with equal name and argument lists render
identically. -/
theorem term_identity_semantics (a b : AspFunctionObj) :
    (pyEq a b = true ↔ a.objId = b.objId) ∧
    (pyEq a b = true → pyHash a = pyHash b) ∧
    (a.name = b.name → a.args = b.args →
      a.toAspFunction = b.toAspFunction ∧
      (a.toAspFunction).str = (b.toAspFunction).str) := by
  refine ⟨by simp [pyEq], ?_, ?_⟩
  · intro h
    simp [pyEq] at h
    simp [pyHash, h]
  · intro hn ha
    have : a.toAspFunction = b.toAspFunction := by
      simp [AspFunctionObj.toAspFunction, hn, ha]
    exact ⟨this, by rw [this]⟩

/-- Witness for the C9 amended theorem at concrete inputs. -/
theorem term_identity_semantics_witness :
    pyHash ⟨5, "node", []⟩ = pyHash ⟨5, "node", []⟩ ∧
    (AspFunctionObj.toAspFunction ⟨0, "node", []⟩).str =
      (AspFunctionObj.toAspFunction ⟨1, "node", []⟩).str :=
  ⟨(term_identity_semantics ⟨5, "node", []⟩ ⟨5, "node", []⟩).2.1 (by decide),
   ((term_identity_semantics ⟨0, "node", []⟩ ⟨1, "node", []⟩).2.2 rfl rfl).2⟩

/-- C8 counterexample: when the original flag list already contains a
duplicate, a flag of the new list can appear twice in the result —
`list.remove` only removes the first occurrence — so "each flag of N
appears exactly once" fails for arbitrary flag lists. -/
theorem extend_flag_list_counterexample :
    extend_flag_list ["a", "b", "a"] ["a"] = ["b", "a", "a"] ∧
    (extend_flag_list ["a", "b", "a"] ["a"]).count "a" ≠ 1 := by decide

theorem extend_flag_list_fold_step (acc : List String) (flag : String) :
    (if flag ∈ acc then acc.erase flag else acc) ++ [flag] =
      acc.erase flag ++ [flag] := by
  by_cases h : flag ∈ acc
  · simp [h]
  · simp [h, List.erase_of_not_mem h]

theorem extend_flag_list_cons (L : List String) (f : String) (N : List String) :
    extend_flag_list L (f :: N) = extend_flag_list (L.erase f ++ [f]) N := by
  unfold extend_flag_list
  rw [List.foldl_cons, extend_flag_list_fold_step]

theorem erase_append_singleton_nodup {L : List String} {f : String}
    (h : L.Nodup) : (L.erase f ++ [f]).Nodup := by
  refine List.Nodup.append (h.erase f) (List.nodup_singleton f) ?_
  intro x hx hxf
  simp at hxf
  subst hxf
  exact (List.Nodup.not_mem_erase h) hx

theorem mem_extend_flag_list (x : String) (N : List String) :
    ∀ L : List String, x ∈ extend_flag_list L N ↔ x ∈ L ∨ x ∈ N := by
  induction N with
  | nil => intro L; simp [extend_flag_list]
  | cons f N ih =>
    intro L
    rw [extend_flag_list_cons, ih]
    constructor
    · rintro (hm | hm)
      · rcases List.mem_append.mp hm with hm | hm
        · exact Or.inl (List.mem_of_mem_erase hm)
        · simp at hm; subst hm; exact Or.inr (by simp)
      · exact Or.inr (by simp [hm])
    · rintro (hm | hm)
      · by_cases hxf : x = f
        · subst hxf; exact Or.inl (by simp)
        · exact Or.inl (List.mem_append.mpr (Or.inl ((List.mem_erase_of_ne hxf).mpr hm)))
      · rcases List.mem_cons.mp hm with hm | hm
        · subst hm; exact Or.inl (by simp)
        · exact Or.inr hm

theorem extend_flag_list_nodup (N : List String) :
    ∀ L : List String, L.Nodup → (extend_flag_list L N).Nodup := by
  induction N with
  | nil => intro L h; simpa [extend_flag_list] using h
  | cons f N ih =>
    intro L h
    rw [extend_flag_list_cons]
    exact ih _ (erase_append_singleton_nodup h)

theorem extend_flag_list_characterization (N : List String) :
    ∀ L : List String, L.Nodup →
      extend_flag_list L N =
        L.filter (fun x => decide (x ∉ N)) ++ extend_flag_list [] N := by
  induction N with
  | nil => intro L _; simp [extend_flag_list]
  | cons f N ih =>
    intro L h
    rw [extend_flag_list_cons, ih _ (erase_append_singleton_nodup h),
        extend_flag_list_cons [] f N, ih ([].erase f ++ [f]) (by simp)]
    simp only [List.erase_nil, List.nil_append, List.filter_append, List.append_assoc]
    congr 1
    rw [List.Nodup.erase_eq_filter h f, List.filter_filter]
    apply List.filter_congr
    intro x _
    by_cases hxf : x = f
    · subst hxf; simp
    · simp [hxf]

/-- C8 amended (the claim holds once the original flag list is
duplicate-free, as the lists built by `reorder_flags` are): the result is
exactly the original flags not in `N`, in their original order, followed by
the flags of `N` each exactly once (in `N`'s order of last occurrence, as
computed by `extend_flag_list [] N`); hence every flag of the new list —
e.g. a node's own flag also present in an ancestor in `reorder_flags` —
lands in the appended suffix, after every retained original flag, taking
higher precedence on the compile line. -/
theorem extend_flag_list_spec (L N : List String) (h : L.Nodup) :
    extend_flag_list L N =
      L.filter (fun x => decide (x ∉ N)) ++ extend_flag_list [] N ∧
    (∀ f, f ∈ extend_flag_list [] N ↔ f ∈ N) ∧
    (∀ f ∈ N, (extend_flag_list L N).count f = 1) := by
  refine ⟨extend_flag_list_characterization N L h, ?_, ?_⟩
  · intro f
    simpa using mem_extend_flag_list f N []
  · intro f hf
    have hmem : f ∈ extend_flag_list L N := (mem_extend_flag_list f N L).mpr (Or.inr hf)
    exact List.count_eq_one_of_mem (extend_flag_list_nodup N L h) hmem

/-- Witness for the C8 amended theorem at concrete inputs. -/
theorem extend_flag_list_spec_witness :
    extend_flag_list ["x", "y"] ["y", "z"] =
      (["x", "y"] : List String).filter (fun x => decide (x ∉ (["y", "z"] : List String))) ++
        extend_flag_list [] ["y", "z"] ∧
    (extend_flag_list ["x", "y"] ["y", "z"]).count "y" = 1 :=
  ⟨(extend_flag_list_spec ["x", "y"] ["y", "z"] (by decide)).1,
   (extend_flag_list_spec ["x", "y"] ["y", "z"] (by decide)).2.2 "y" (by decide)⟩

theorem orderedInsert_of_forall_rel {α : Type} (r : α → α → Prop) [DecidableRel r]
    (t : α) (l : List α) (h : ∀ x ∈ l, r t x) :
    List.orderedInsert r t l = t :: l := by
  cases l with
  | nil => rfl
  | cons b l => simp [List.orderedInsert, if_pos (h b (List.mem_cons_self b l))]

theorem orderedInsert_append_of_forall_not {α : Type} (r : α → α → Prop) [DecidableRel r]
    (t : α) (A B : List α) (h : ∀ a ∈ A, ¬ r t a) :
    List.orderedInsert r t (A ++ B) = A ++ List.orderedInsert r t B := by
  induction A with
  | nil => rfl
  | cons a A ih =>
    simp only [List.cons_append, List.orderedInsert, if_neg (h a (List.mem_cons_self a A)),
      List.append_eq]
    rw [ih (fun x hx => h x (List.mem_cons_of_mem a hx))]

theorem specBuilderSortKey_cases (t : FnTuple) :
    specBuilderSortKey t = -2 ∨ specBuilderSortKey t = -1 ∨ specBuilderSortKey t = 0 := by
  unfold specBuilderSortKey
  split_ifs <;> simp

theorem build_specs_sorted_eq (ts : List FnTuple) :
    build_specs_sorted ts =
      ts.filter (fun t => specBuilderSortKey t == -2) ++
      ts.filter (fun t => specBuilderSortKey t == -1) ++
      ts.filter (fun t => specBuilderSortKey t == 0) := by
  induction ts with
  | nil => rfl
  | cons t ts ih =>
    have hins : build_specs_sorted (t :: ts) =
        List.orderedInsert (fun a b => specBuilderSortKey a ≤ specBuilderSortKey b) t
          (build_specs_sorted ts) := rfl
    rw [hins, ih]
    rcases specBuilderSortKey_cases t with hk | hk | hk
    · have hall : ∀ x ∈ ts.filter (fun u => specBuilderSortKey u == -2) ++
          ts.filter (fun u => specBuilderSortKey u == -1) ++
          ts.filter (fun u => specBuilderSortKey u == 0),
          specBuilderSortKey t ≤ specBuilderSortKey x := by
        intro x _
        have := specBuilderSortKey_cases x
        omega
      rw [orderedInsert_of_forall_rel _ _ _ hall]
      simp [List.filter_cons, hk]
    · have hnot : ∀ a ∈ ts.filter (fun u => specBuilderSortKey u == -2),
          ¬ specBuilderSortKey t ≤ specBuilderSortKey a := by
        intro a ha
        have hmem := (List.mem_filter.mp ha).2
        simp only [beq_iff_eq] at hmem
        omega
      rw [List.append_assoc, orderedInsert_append_of_forall_not _ _ _ _ hnot]
      have hall : ∀ x ∈ ts.filter (fun u => specBuilderSortKey u == -1) ++
          ts.filter (fun u => specBuilderSortKey u == 0),
          specBuilderSortKey t ≤ specBuilderSortKey x := by
        intro x hx
        rcases List.mem_append.mp hx with h | h <;>
          · have := (List.mem_filter.mp h).2
            simp only [beq_iff_eq] at this
            omega
      rw [orderedInsert_of_forall_rel _ _ _ hall]
      simp [List.filter_cons, hk]
    · have hnot : ∀ a ∈ ts.filter (fun u => specBuilderSortKey u == -2) ++
          ts.filter (fun u => specBuilderSortKey u == -1),
          ¬ specBuilderSortKey t ≤ specBuilderSortKey a := by
        intro a ha
        rcases List.mem_append.mp ha with h | h <;>
          · have := (List.mem_filter.mp h).2
            simp only [beq_iff_eq] at this
            omega
      rw [orderedInsert_append_of_forall_not _ _ _ _ hnot]
      have hall : ∀ x ∈ ts.filter (fun u => specBuilderSortKey u == 0),
          specBuilderSortKey t ≤ specBuilderSortKey x := by
        intro x hx
        have := (List.mem_filter.mp hx).2
        simp only [beq_iff_eq] at this
        omega
      rw [orderedInsert_of_forall_rel _ _ _ hall]
      simp [List.filter_cons, hk]

/-- C6: `build_specs` processes the model tuples in an order where every
`node(...)` tuple comes first, then every `node_compiler(...)` tuple, then
all others, and — the sort being stable — the relative order inside each of
the three groups is preserved: the sorted sequence is exactly the
concatenation of the three subsequences in their original order. -/
theorem build_specs_processing_order (ts : List FnTuple) :
    build_specs_sorted ts =
      ts.filter (fun t => t.name == "node") ++
      ts.filter (fun t => t.name == "node_compiler") ++
      ts.filter (fun t => !(t.name == "node") && !(t.name == "node_compiler")) := by
  rw [build_specs_sorted_eq]
  have e2 : ∀ t : FnTuple, (specBuilderSortKey t == (-2 : Int)) = (t.name == "node") := by
    intro t
    by_cases h1 : t.name = "node"
    · simp [specBuilderSortKey, h1]
    · by_cases h2 : t.name = "node_compiler" <;> simp [specBuilderSortKey, h1, h2]
  have e1 : ∀ t : FnTuple,
      (specBuilderSortKey t == (-1 : Int)) = (t.name == "node_compiler") := by
    intro t
    by_cases h1 : t.name = "node"
    · simp [specBuilderSortKey, h1]
    · by_cases h2 : t.name = "node_compiler" <;> simp [specBuilderSortKey, h1, h2]
  have e0 : ∀ t : FnTuple, (specBuilderSortKey t == (0 : Int)) =
      (!(t.name == "node") && !(t.name == "node_compiler")) := by
    intro t
    by_cases h1 : t.name = "node"
    · simp [specBuilderSortKey, h1]
    · by_cases h2 : t.name = "node_compiler" <;> simp [specBuilderSortKey, h1, h2]
  rw [List.filter_congr (fun t _ => e2 t), List.filter_congr (fun t _ => e1 t),
    List.filter_congr (fun t _ => e0 t)]

theorem specBuilderAction_eq_none {name : String}
    (h : name ∉ specBuilderActionNames) : specBuilderAction name = none := by
  simp [specBuilderActionNames] at h
  obtain ⟨h1, h2, h3, h4, h5, h6, h7, h8, h9, h10, h11, h12, h13, h14⟩ := h
  simp only [specBuilderAction, if_neg h1, if_neg h2, if_neg h3, if_neg h4, if_neg h5,
    if_neg h6, if_neg h7, if_neg h8, if_neg h9, if_neg h10, if_neg h11, if_neg h12,
    if_neg h13, if_neg h14]

theorem build_specs_step_unknown {name : String} (args : List String) (s : BuilderState)
    (h1 : name ∉ specBuilderActionNames) (h2 : name ∉ specBuilderOtherAttrs) :
    build_specs_step s ⟨name, args⟩ = .ok s := by
  simp [build_specs_step, specBuilderAction_eq_none h1, h2]

theorem foldlM_step_ok_middle (P Q : List FnTuple) (t : FnTuple) (s : BuilderState)
    (hstep : ∀ s' : BuilderState, build_specs_step s' t = .ok s') :
    (P ++ t :: Q).foldlM build_specs_step s = (P ++ Q).foldlM build_specs_step s := by
  rw [List.foldlM_append, List.foldlM_append]
  simp only [List.foldlM_cons, hstep]
  rfl

/-- C7: a model tuple whose functor name matches no `SpecBuilder` handler
method is logged and skipped: dispatching it returns the builder state
unchanged, never raises, and the remaining tuples are still processed — the
whole build behaves as if the unknown tuple were absent. -/
theorem build_specs_unknown_functor (name : String) (args : List String)
    (ts₁ ts₂ : List FnTuple) (s : BuilderState)
    (h1 : name ∉ specBuilderActionNames) (h2 : name ∉ specBuilderOtherAttrs) :
    build_specs_step s ⟨name, args⟩ = .ok s ∧
    build_specs (ts₁ ++ ⟨name, args⟩ :: ts₂) s = build_specs (ts₁ ++ ts₂) s := by
  have hstep : ∀ s' : BuilderState, build_specs_step s' ⟨name, args⟩ = .ok s' :=
    fun s' => build_specs_step_unknown args s' h1 h2
  refine ⟨hstep s, ?_⟩
  have hn1 : ¬ name = "node" := by
    intro e
    exact h1 (by rw [e]; simp [specBuilderActionNames])
  have hn2 : ¬ name = "node_compiler" := by
    intro e
    exact h1 (by rw [e]; simp [specBuilderActionNames])
  have k0 : specBuilderSortKey ⟨name, args⟩ = 0 := by
    simp [specBuilderSortKey, hn1, hn2]
  unfold build_specs
  rw [build_specs_sorted_eq, build_specs_sorted_eq]
  simp only [List.filter_append, List.filter_cons, k0]
  norm_num
  simp only [List.foldlM_append, List.foldlM_cons, hstep]
  rfl

/-- Witness for the C7 theorem at concrete inputs. -/
theorem build_specs_unknown_functor_witness :
    build_specs_step {} ⟨"unknown_fact", ["a"]⟩ = .ok {} ∧
    build_specs ([⟨"node", ["a"]⟩] ++ ⟨"unknown_fact", ["a"]⟩ :: [⟨"version", ["a", "2"]⟩]) {} =
      build_specs ([⟨"node", ["a"]⟩] ++ [⟨"version", ["a", "2"]⟩]) {} :=
  build_specs_unknown_functor "unknown_fact" ["a"] [⟨"node", ["a"]⟩]
    [⟨"version", ["a", "2"]⟩] {} (by decide) (by decide)

theorem render_core_ok (core : List AspFunction)
    (h : ∀ sym ∈ core, sym.name = "rule" →
      ∃ s rest, sym.args = AspArg.str s :: rest) :
    ∃ rcore, render_core core = .ok rcore ∧
      List.Forall₂ (fun sym e =>
        (sym.name = "rule" ∧
          ∃ s rest, sym.args = AspArg.str s :: rest ∧ e = CoreElem.ruleText s) ∨
        (¬ sym.name = "rule" ∧ e = CoreElem.atom sym)) core rcore := by
  induction core with
  | nil => exact ⟨[], rfl, List.Forall₂.nil⟩
  | cons sym core ih =>
    obtain ⟨rcore, hok, hrel⟩ := ih fun x hx hr => h x (List.mem_cons_of_mem sym hx) hr
    unfold render_core at hok
    by_cases hr : sym.name = "rule"
    · obtain ⟨s, rest, hargs⟩ := h sym (List.mem_cons_self sym core) hr
      refine ⟨CoreElem.ruleText s :: rcore, ?_,
        List.Forall₂.cons (Or.inl ⟨hr, s, rest, hargs, rfl⟩) hrel⟩
      unfold render_core
      rw [List.mapM_cons]
      have hstep : core_atom_rendered sym = .ok (CoreElem.ruleText s) := by
        simp [core_atom_rendered, hr, hargs]
      simp only [hstep, hok]
      rfl
    · refine ⟨CoreElem.atom sym :: rcore, ?_,
        List.Forall₂.cons (Or.inr ⟨hr, rfl⟩) hrel⟩
      unfold render_core
      rw [List.mapM_cons]
      have hstep : core_atom_rendered sym = .ok (CoreElem.atom sym) := by
        simp [core_atom_rendered, hr]
      simp only [hstep, hok]
      rfl

theorem mapM_render_cores_ok (cores : List (List AspFunction))
    (h : ∀ core ∈ cores, ∀ sym ∈ core, sym.name = "rule" →
      ∃ s rest, sym.args = AspArg.str s :: rest) :
    ∃ rendered, cores.mapM render_core = .ok rendered ∧
      List.Forall₂ (fun core rcore =>
        List.Forall₂ (fun sym e =>
          (sym.name = "rule" ∧
            ∃ s rest, sym.args = AspArg.str s :: rest ∧ e = CoreElem.ruleText s) ∨
          (¬ sym.name = "rule" ∧ e = CoreElem.atom sym)) core rcore) cores rendered := by
  induction cores with
  | nil => exact ⟨[], rfl, List.Forall₂.nil⟩
  | cons core cores ih =>
    obtain ⟨rendered, hok, hrel⟩ := ih fun c hc => h c (List.mem_cons_of_mem core hc)
    obtain ⟨rcore, hok1, hrel1⟩ :=
      render_core_ok core (h core (List.mem_cons_self core cores))
    refine ⟨rcore :: rendered, ?_, List.Forall₂.cons hrel1 hrel⟩
    rw [List.mapM_cons]
    simp only [hok1, hok]
    rfl

/-- C4: an unsatisfiable solve is returned, not raised: the result carries
`satisfiable = false`, and each reported core is rendered so that every
core atom whose functor name is `rule` is replaced by its rule-text string
argument while all other atoms survive unchanged. -/
theorem unsat_result_rendering (cores : List (List AspFunction))
    (h : ∀ core ∈ cores, ∀ sym ∈ core, sym.name = "rule" →
      ∃ s rest, sym.args = AspArg.str s :: rest) :
    ∃ rendered, build_unsat_result cores = .ok ⟨false, rendered⟩ ∧
      List.Forall₂ (fun core rcore =>
        List.Forall₂ (fun sym e =>
          (sym.name = "rule" ∧
            ∃ s rest, sym.args = AspArg.str s :: rest ∧ e = CoreElem.ruleText s) ∨
          (¬ sym.name = "rule" ∧ e = CoreElem.atom sym)) core rcore) cores rendered := by
  obtain ⟨rendered, hok, hrel⟩ := mapM_render_cores_ok cores h
  refine ⟨rendered, ?_, hrel⟩
  unfold build_unsat_result
  rw [hok]
  rfl

/-- Witness for the C4 theorem at a concrete unsatisfiable outcome. -/
theorem unsat_result_rendering_witness :
    ∃ rendered,
      build_unsat_result [[⟨"rule", [.str "r1"]⟩, ⟨"node", [.str "a"]⟩]] =
        .ok ⟨false, rendered⟩ ∧
      List.Forall₂ (fun core rcore =>
        List.Forall₂ (fun sym e =>
          (sym.name = "rule" ∧
            ∃ s rest, sym.args = AspArg.str s :: rest ∧ e = CoreElem.ruleText s) ∨
          (¬ sym.name = "rule" ∧ e = CoreElem.atom sym)) core rcore)
        [[⟨"rule", [.str "r1"]⟩, ⟨"node", [.str "a"]⟩]] rendered :=
  unsat_result_rendering [[⟨"rule", [.str "r1"]⟩, ⟨"node", [.str "a"]⟩]]
    (by
      intro core hc sym hs hr
      simp only [List.mem_singleton] at hc
      subst hc
      rcases List.mem_cons.mp hs with h1 | h1
      · subst h1; exact ⟨"r1", [], rfl⟩
      · simp only [List.mem_singleton] at h1
        subst h1
        exact absurd hr (by decide))

theorem integrity_constraint_cores_flag (clauses neg : List AspFunction)
    (s : DriverState) : (integrity_constraint clauses neg s).cores = s.cores := by
  unfold integrity_constraint registerRuleForCores
  by_cases h : s.cores <;> simp [h]

theorem integrity_constraint_rules_eq (clauses neg : List AspFunction)
    (s : DriverState) :
    (integrity_constraint clauses neg s).rules = s.rules ++
      (if s.cores then
        [⟨[⟨"rule", [.str (integrityRuleStr clauses neg)]⟩], [], [], true⟩,
         ⟨[], clauses ++ [⟨"rule", [.str (integrityRuleStr clauses neg)]⟩], neg, false⟩]
       else [⟨[], clauses, neg, false⟩]) := by
  unfold integrity_constraint registerRuleForCores
  by_cases h : s.cores <;> simp [h]

theorem foldl_rules_mono {β : Type} (g : DriverState → β → DriverState)
    (hg : ∀ s b, ∃ u, (g s b).rules = s.rules ++ u) (l : List β) :
    ∀ (s : DriverState) (R : BackendRule), R ∈ s.rules → R ∈ (l.foldl g s).rules := by
  induction l with
  | nil => intro s R hR; exact hR
  | cons b l ih =>
    intro s R hR
    rw [List.foldl_cons]
    refine ih (g s b) R ?_
    obtain ⟨u, hu⟩ := hg s b
    rw [hu]
    exact List.mem_append.mpr (Or.inl hR)

theorem integrity_constraint_rules_append (clauses neg : List AspFunction)
    (s : DriverState) : ∃ u, (integrity_constraint clauses neg s).rules = s.rules ++ u :=
  ⟨_, integrity_constraint_rules_eq clauses neg s⟩

theorem conflict_inner_fold_rules_append (pkg : String)
    (f : String → String → List AspFunction) (trigger : String) (cs : List String) :
    ∀ s : DriverState, ∃ u,
      (cs.foldl (fun s c =>
        integrity_constraint (conflictClauses f c trigger) [external_fn pkg] s) s).rules =
        s.rules ++ u := by
  induction cs with
  | nil => intro s; exact ⟨[], by simp⟩
  | cons c cs ih =>
    intro s
    rw [List.foldl_cons]
    obtain ⟨u1, hu1⟩ := ih (integrity_constraint (conflictClauses f c trigger)
      [external_fn pkg] s)
    obtain ⟨u0, hu0⟩ := integrity_constraint_rules_append (conflictClauses f c trigger)
      [external_fn pkg] s
    exact ⟨u0 ++ u1, by rw [hu1, hu0, List.append_assoc]⟩

theorem conflict_inner_fold_emits (pkg : String)
    (f : String → String → List AspFunction) (trigger : String)
    (cs : List String) (constraint : String) (h : constraint ∈ cs) :
    ∀ s : DriverState, ∃ ruleAtoms : List AspFunction,
      (⟨[], conflictClauses f constraint trigger ++ ruleAtoms,
        [external_fn pkg], false⟩ : BackendRule) ∈
        (cs.foldl (fun s c =>
          integrity_constraint (conflictClauses f c trigger) [external_fn pkg] s) s).rules ∧
      (ruleAtoms = [] ∨ ∃ rs : String, ruleAtoms = [⟨"rule", [.str rs]⟩]) := by
  induction cs with
  | nil => exact absurd h (List.not_mem_nil constraint)
  | cons c cs ih =>
    intro s
    rw [List.foldl_cons]
    rcases List.mem_cons.mp h with hc | hc
    · subst hc
      set s1 := integrity_constraint (conflictClauses f constraint trigger)
        [external_fn pkg] s with hs1
      by_cases hco : s.cores
      · refine ⟨[⟨"rule", [.str (integrityRuleStr (conflictClauses f constraint trigger)
          [external_fn pkg])]⟩], ?_, Or.inr ⟨_, rfl⟩⟩
        refine foldl_rules_mono _ (fun s' c' => integrity_constraint_rules_append _ _ s') cs s1 _ ?_
        rw [hs1, integrity_constraint_rules_eq, if_pos hco]
        simp
      · refine ⟨[], ?_, Or.inl rfl⟩
        refine foldl_rules_mono _ (fun s' c' => integrity_constraint_rules_append _ _ s') cs s1 _ ?_
        rw [hs1, integrity_constraint_rules_eq, if_neg hco]
        simp
    · exact ih hc _

/-- C5: for every conflict `(trigger, constraint)` declared on a package,
`conflict_rules` emits an integrity constraint whose positive body is the
clause list obtained from the constrained spec traversal with every clause
named `node_compiler_hard` removed (plus the core-tracking rule atom when
core reporting is on), and whose default-negated part is exactly
`external(pkg)`, so the constraint cannot fire for external packages. -/
theorem conflict_rules_emits (pkg : String)
    (conflicts : List (String × List String))
    (bodyClauses : String → String → List AspFunction) (s0 : DriverState)
    (trigger constraint : String) (cs : List String)
    (h1 : (trigger, cs) ∈ conflicts) (h2 : constraint ∈ cs) :
    ∃ ruleAtoms : List AspFunction,
      (⟨[], (bodyClauses constraint trigger).filter
          (fun x => decide (¬ x.name = "node_compiler_hard")) ++ ruleAtoms,
        [external_fn pkg], false⟩ : BackendRule) ∈
        (conflict_rules pkg conflicts bodyClauses s0).rules ∧
      (ruleAtoms = [] ∨ ∃ rs : String, ruleAtoms = [⟨"rule", [.str rs]⟩]) := by
  have hfilter : (bodyClauses constraint trigger).filter
      (fun x => decide (¬ x.name = "node_compiler_hard")) =
      conflictClauses bodyClauses constraint trigger := by
    unfold conflictClauses
    apply List.filter_congr
    intro x _
    simp
  rw [hfilter]
  unfold conflict_rules
  induction conflicts generalizing s0 with
  | nil => exact absurd h1 (List.not_mem_nil _)
  | cons tc rest ih =>
    rw [List.foldl_cons]
    rcases List.mem_cons.mp h1 with htc | htc
    · subst htc
      obtain ⟨ruleAtoms, hmem, hshape⟩ :=
        conflict_inner_fold_emits pkg bodyClauses trigger cs constraint h2 s0
      refine ⟨ruleAtoms, ?_, hshape⟩
      refine foldl_rules_mono _ (fun s' tc' => ?_) rest _ _ hmem
      exact conflict_inner_fold_rules_append pkg bodyClauses tc'.1 tc'.2 s'
    · exact ih _ htc

/-- Witness for the C5 theorem at concrete inputs. -/
theorem conflict_rules_emits_witness :
    ∃ ruleAtoms : List AspFunction,
      (⟨[], ([⟨"node", [.str "cnl"]⟩, ⟨"node_compiler_hard", [.str "cnl", .str "clang"]⟩]
          : List AspFunction).filter
          (fun x => decide (¬ x.name = "node_compiler_hard")) ++ ruleAtoms,
        [external_fn "cnl"], false⟩ : BackendRule) ∈
        (conflict_rules "cnl" [("%clang", ["~foo"])]
          (fun _ _ => [⟨"node", [.str "cnl"]⟩,
            ⟨"node_compiler_hard", [.str "cnl", .str "clang"]⟩])
          ⟨true, [], [], [], [], []⟩).rules ∧
      (ruleAtoms = [] ∨ ∃ rs : String, ruleAtoms = [⟨"rule", [.str rs]⟩]) :=
  conflict_rules_emits "cnl" [("%clang", ["~foo"])]
    (fun _ _ => [⟨"node", [.str "cnl"]⟩,
      ⟨"node_compiler_hard", [.str "cnl", .str "clang"]⟩])
    ⟨true, [], [], [], [], []⟩ "%clang" "~foo" ["~foo"] (by decide) (by decide)

theorem restrictedAllowed_sublist (possible : List SpkVersion) (c : VersionConstraint) :
    (restrictedAllowed possible c).Sublist possible := by
  unfold restrictedAllowed
  by_cases h : ((possible.filter fun v => vSatisfies v c).filter fun v => v == c.base).isEmpty = true
  · rw [if_pos h]
    exact List.filter_sublist possible
  · rw [if_neg h]
    exact ((List.filter_sublist _).trans (List.filter_sublist possible))

theorem restrictedAllowed_length_iff (possible : List SpkVersion) (c : VersionConstraint) :
    (restrictedAllowed possible c).length = possible.length ↔
      ((∀ v ∈ possible, vSatisfies v c = true) ∧
       ((∀ v ∈ possible, ¬ v = c.base) ∨ (∀ v ∈ possible, v = c.base))) := by
  constructor
  · intro hlen
    have heq : restrictedAllowed possible c = possible :=
      (restrictedAllowed_sublist possible c).eq_of_length hlen
    unfold restrictedAllowed at heq
    by_cases hE : ((possible.filter fun v => vSatisfies v c).filter fun v =>
        v == c.base).isEmpty = true
    · rw [if_pos hE] at heq
      have hsat := List.filter_eq_self.mp heq
      refine ⟨hsat, Or.inl ?_⟩
      rw [heq, List.isEmpty_iff] at hE
      intro v hv hvb
      have : ¬ (v == c.base) = true := List.filter_eq_nil_iff.mp hE v hv
      exact this (by simp [hvb])
    · rw [if_neg hE] at heq
      have h2 : ((possible.filter fun v => vSatisfies v c).filter fun v =>
          v == c.base).Sublist (possible.filter fun v => vSatisfies v c) :=
        List.filter_sublist _
      have h3 := h2
      rw [heq] at h3
      have h4 : possible.filter (fun v => vSatisfies v c) = possible :=
        (List.filter_sublist possible).antisymm h3
      have hsat := List.filter_eq_self.mp h4
      refine ⟨hsat, Or.inr ?_⟩
      rw [h4] at heq
      intro v hv
      have := List.filter_eq_self.mp heq v hv
      simpa using this
  · rintro ⟨hsat, hd⟩
    have hAll : possible.filter (fun v => vSatisfies v c) = possible :=
      List.filter_eq_self.mpr hsat
    unfold restrictedAllowed
    rw [hAll]
    rcases hd with hnone | hall
    · have hE : (possible.filter fun v => v == c.base) = [] :=
        List.filter_eq_nil_iff.mpr (fun v hv => by simpa using hnone v hv)
      rw [hE]
      simp
    · have hB : possible.filter (fun v => v == c.base) = possible :=
        List.filter_eq_self.mpr (fun v hv => by simpa using hall v hv)
      rw [hB]
      split <;> rfl

theorem one_of_iff_output_suffix (head : AspFunction) (versions : List AspFunction)
    (s : DriverState) : ∃ L, (one_of_iff head versions s).output = s.output ++ L := by
  unfold one_of_iff
  by_cases h : versions.isEmpty = true
  · rw [if_pos h]
    exact ⟨[], by simp⟩
  · rw [if_neg h]
    exact ⟨_, rfl⟩

theorem version_constraint_step_skip (possible : String → List SpkVersion)
    (pkg : String) (c : VersionConstraint) (s : DriverState)
    (h : (restrictedAllowed (possible pkg) c).length = (possible pkg).length) :
    version_constraint_step possible pkg c s = s := by
  simp [version_constraint_step, h]

theorem version_constraint_step_emit (possible : String → List SpkVersion)
    (pkg : String) (c : VersionConstraint) (s : DriverState)
    (h : ¬ (restrictedAllowed (possible pkg) c).length = (possible pkg).length) :
    version_constraint_step possible pkg c s =
      { one_of_iff ⟨"version_satisfies", [.str pkg, .vrange c]⟩
          ((restrictedAllowed (possible pkg) c).map fun v =>
            (⟨"version", [.str pkg, .ver v]⟩ : AspFunction)) s
        with output := (one_of_iff ⟨"version_satisfies", [.str pkg, .vrange c]⟩
          ((restrictedAllowed (possible pkg) c).map fun v =>
            (⟨"version", [.str pkg, .ver v]⟩ : AspFunction)) s).output ++ ["\n"] } := by
  simp [version_constraint_step, h]

/-- C2 counterexample: with possible versions `1.0` and `1.0.2` and the
recorded range `1.0`, every possible version satisfies the range, yet
`define_version_constraints` still emits the equivalence (restricted to the
exact match `1.0`), because the exact-match restriction shrinks the allowed
list below the possible set before the skip test. -/
theorem version_constraint_counterexample :
    (∀ v ∈ ([⟨false, [.num 1, .num 0]⟩,
        ⟨false, [.num 1, .num 0, .num 2]⟩] : List SpkVersion),
      vSatisfies v ⟨⟨false, [.num 1, .num 0]⟩⟩ = true) ∧
    (define_version_constraints
        (fun _ => [⟨false, [.num 1, .num 0]⟩, ⟨false, [.num 1, .num 0, .num 2]⟩])
        [("mpich", ⟨⟨false, [.num 1, .num 0]⟩⟩)]
        ⟨true, [], [], [], [], []⟩).rules ≠ [] := by decide

/-- C2 amended: for every recorded constraint `(pkg, range)`,
`define_version_constraints` emits the `one_of_iff` equivalence between
`version_satisfies(pkg, range)` and the allowed versions — restricted to
the exact matches when some possible version equals the range exactly —
except that nothing is emitted precisely when every possible version
satisfies the range *and* the exact-match restriction discards nothing
(no possible version equals the range exactly, or all of them do); a range
satisfied by every possible version can therefore still emit an
equivalence. -/
theorem version_constraint_emission (possible : String → List SpkVersion)
    (pkg : String) (c : VersionConstraint) (s : DriverState) :
    (version_constraint_step possible pkg c s = s ↔
      ((∀ v ∈ possible pkg, vSatisfies v c = true) ∧
       ((∀ v ∈ possible pkg, ¬ v = c.base) ∨ (∀ v ∈ possible pkg, v = c.base)))) ∧
    (¬ ((∀ v ∈ possible pkg, vSatisfies v c = true) ∧
       ((∀ v ∈ possible pkg, ¬ v = c.base) ∨ (∀ v ∈ possible pkg, v = c.base))) →
      version_constraint_step possible pkg c s =
        { one_of_iff ⟨"version_satisfies", [.str pkg, .vrange c]⟩
            ((restrictedAllowed (possible pkg) c).map fun v =>
              (⟨"version", [.str pkg, .ver v]⟩ : AspFunction)) s
          with output := (one_of_iff ⟨"version_satisfies", [.str pkg, .vrange c]⟩
            ((restrictedAllowed (possible pkg) c).map fun v =>
              (⟨"version", [.str pkg, .ver v]⟩ : AspFunction)) s).output ++ ["\n"] }) ∧
    define_version_constraints possible [(pkg, c)] s =
      version_constraint_step possible pkg c s := by
  refine ⟨⟨?_, ?_⟩, ?_, rfl⟩
  · intro hstep
    by_contra hcond
    have hlen : ¬ (restrictedAllowed (possible pkg) c).length = (possible pkg).length :=
      fun hl => hcond ((restrictedAllowed_length_iff _ _).mp hl)
    have hemit := version_constraint_step_emit possible pkg c s hlen
    rw [hstep] at hemit
    obtain ⟨L, hL⟩ := one_of_iff_output_suffix
      ⟨"version_satisfies", [.str pkg, .vrange c]⟩
      ((restrictedAllowed (possible pkg) c).map fun v =>
        (⟨"version", [.str pkg, .ver v]⟩ : AspFunction)) s
    have hout := congrArg DriverState.output hemit
    simp only at hout
    rw [hL] at hout
    have hlen2 := congrArg List.length hout
    simp [List.length_append] at hlen2
  · intro hcond
    exact version_constraint_step_skip possible pkg c s
      ((restrictedAllowed_length_iff _ _).mpr hcond)
  · intro hcond
    exact version_constraint_step_emit possible pkg c s
      (fun hl => hcond ((restrictedAllowed_length_iff _ _).mp hl))

/-- Witness for the C2 amended theorem at the counterexample input. -/
theorem version_constraint_emission_witness :
    version_constraint_step
        (fun _ => [⟨false, [.num 1, .num 0]⟩, ⟨false, [.num 1, .num 0, .num 2]⟩])
        "mpich" ⟨⟨false, [.num 1, .num 0]⟩⟩ ⟨true, [], [], [], [], []⟩ =
      { one_of_iff ⟨"version_satisfies", [.str "mpich", .vrange ⟨⟨false, [.num 1, .num 0]⟩⟩]⟩
          ((restrictedAllowed
            ((fun _ => [⟨false, [.num 1, .num 0]⟩, ⟨false, [.num 1, .num 0, .num 2]⟩])
              "mpich") ⟨⟨false, [.num 1, .num 0]⟩⟩).map fun v =>
            (⟨"version", [.str "mpich", .ver v]⟩ : AspFunction))
          ⟨true, [], [], [], [], []⟩
        with output := (one_of_iff
          ⟨"version_satisfies", [.str "mpich", .vrange ⟨⟨false, [.num 1, .num 0]⟩⟩]⟩
          ((restrictedAllowed
            ((fun _ => [⟨false, [.num 1, .num 0]⟩, ⟨false, [.num 1, .num 0, .num 2]⟩])
              "mpich") ⟨⟨false, [.num 1, .num 0]⟩⟩).map fun v =>
            (⟨"version", [.str "mpich", .ver v]⟩ : AspFunction))
          ⟨true, [], [], [], [], []⟩).output ++ ["\n"] } :=
  (version_constraint_emission
    (fun _ => [⟨false, [.num 1, .num 0]⟩, ⟨false, [.num 1, .num 0, .num 2]⟩])
    "mpich" ⟨⟨false, [.num 1, .num 0]⟩⟩ ⟨true, [], [], [], [], []⟩).2.1 (by decide)

theorem compKey_injective : Function.Injective compKey := by
  intro a b h
  cases a with
  | num n =>
    cases b with
    | num m =>
      simp only [compKey, toLex_inj, Prod.mk.injEq] at h
      rw [h.2.1]
    | alpha t =>
      simp only [compKey, toLex_inj, Prod.mk.injEq] at h
      exact absurd h.1 (by decide)
  | alpha s =>
    cases b with
    | num m =>
      simp only [compKey, toLex_inj, Prod.mk.injEq] at h
      exact absurd h.1 (by decide)
    | alpha t =>
      simp only [compKey, toLex_inj, Prod.mk.injEq] at h
      rw [h.2.2]

theorem versionKey_injective : Function.Injective versionKey := by
  intro u v h
  simp only [versionKey, toLex_inj, Prod.mk.injEq] at h
  obtain ⟨h1, h2⟩ := h
  have h3 : u.components = v.components :=
    List.map_injective_iff.mpr compKey_injective h2
  cases u
  cases v
  simp_all

theorem keyfn_injective (pd : PackageVersionData) :
    Function.Injective (keyfn pd) := by
  intro u v h
  simp only [keyfn, toLex_inj, Prod.mk.injEq] at h
  exact versionKey_injective h.2.2.2

theorem version_declared_inj (pkg : String) (a v : SpkVersion) (j i : Nat) :
    version_declared pkg a j = version_declared pkg v i ↔ a = v ∧ j = i := by
  unfold version_declared
  constructor
  · intro h
    simp only [AspFunction.mk.injEq, List.cons.injEq, AspArg.ver.injEq,
      AspArg.num.injEq, Nat.cast_inj] at h
    exact ⟨h.2.2.1, h.2.2.2.1⟩
  · rintro ⟨rfl, rfl⟩
    rfl

theorem mem_pkg_version_rules (pkgName : String) (pd : PackageVersionData)
    (v : SpkVersion) (i : Nat) :
    version_declared pkgName v i ∈ pkg_version_rules pkgName pd ↔
      (List.insertionSort (fun a b => keyfn pd b ≤ keyfn pd a) pd.possible)[i]? =
        some v := by
  unfold pkg_version_rules
  constructor
  · intro h
    obtain ⟨p, hp, heq⟩ := List.mem_map.mp h
    obtain ⟨hv, hi⟩ := (version_declared_inj pkgName p.2 v p.1 i).mp heq
    have := List.mem_enum_iff_getElem?.mp hp
    rw [hi] at this
    rw [← hv]
    exact this
  · intro h
    refine List.mem_map.mpr ⟨(i, v), ?_, rfl⟩
    exact List.mem_enum_iff_getElem?.mpr h

/-- C1: `pkg_version_rules` emits exactly one `version_declared(pkg, v, i)`
fact per possible version `v`, where `i` is the rank of `v` under the
descending sort by the composite key (negated packages.yaml preference
rank, the `preferred=True` flag, not-is-develop, the version itself): rank
0 is the most preferred version, distinct ranks order strictly by key, and
a `@develop` version is ranked above a non-develop version only when the
user preference rank or the preferred flag forces it. -/
theorem pkg_version_rules_spec (pkgName : String) (pd : PackageVersionData)
    (hnd : pd.possible.Nodup) :
    (∀ v, v ∈ pd.possible ↔
      ∃ i, version_declared pkgName v i ∈ pkg_version_rules pkgName pd) ∧
    (∀ u v i j, version_declared pkgName u i ∈ pkg_version_rules pkgName pd →
      version_declared pkgName v j ∈ pkg_version_rules pkgName pd →
      ((i = j → u = v) ∧ (u = v → i = j) ∧ (i < j ↔ keyfn pd v < keyfn pd u))) ∧
    (∀ d v i j, version_declared pkgName d i ∈ pkg_version_rules pkgName pd →
      version_declared pkgName v j ∈ pkg_version_rules pkgName pd →
      d.develop = true → v.develop = false → i < j →
      toLex (-(vprio pd.prefs v : Int), decide (v ∈ pd.preferredSet)) <
        toLex (-(vprio pd.prefs d : Int), decide (d ∈ pd.preferredSet))) := by
  haveI : IsTotal SpkVersion (fun a b => keyfn pd b ≤ keyfn pd a) :=
    ⟨fun a b => le_total (keyfn pd b) (keyfn pd a)⟩
  haveI : IsTrans SpkVersion (fun a b => keyfn pd b ≤ keyfn pd a) :=
    ⟨fun _ _ _ hab hbc => le_trans hbc hab⟩
  have hperm := List.perm_insertionSort (fun a b => keyfn pd b ≤ keyfn pd a) pd.possible
  have hLnd : (List.insertionSort (fun a b => keyfn pd b ≤ keyfn pd a)
      pd.possible).Nodup := hperm.nodup_iff.mpr hnd
  have hsorted := List.sorted_insertionSort (fun a b => keyfn pd b ≤ keyfn pd a)
    pd.possible
  have main : ∀ u v i j,
      version_declared pkgName u i ∈ pkg_version_rules pkgName pd →
      version_declared pkgName v j ∈ pkg_version_rules pkgName pd →
      ((i = j → u = v) ∧ (u = v → i = j) ∧ (i < j ↔ keyfn pd v < keyfn pd u)) := by
    intro u v i j hu hv
    rw [mem_pkg_version_rules] at hu hv
    obtain ⟨hi, hgu⟩ := List.getElem?_eq_some.mp hu
    obtain ⟨hj, hgv⟩ := List.getElem?_eq_some.mp hv
    have heq_of_idx : i = j → u = v := by
      intro hij
      subst hij
      rw [← hgu, ← hgv]
    have hidx_of_eq : u = v → i = j := by
      intro huv
      have : (List.insertionSort (fun a b => keyfn pd b ≤ keyfn pd a) pd.possible)[i] =
          (List.insertionSort (fun a b => keyfn pd b ≤ keyfn pd a) pd.possible)[j] := by
        rw [hgu, hgv, huv]
      exact (List.Nodup.getElem_inj_iff hLnd).mp this
    refine ⟨heq_of_idx, hidx_of_eq, ?_, ?_⟩
    · intro hij
      have hle := List.Sorted.rel_get_of_lt hsorted
        (a := ⟨i, hi⟩) (b := ⟨j, hj⟩) hij
      simp only [List.get_eq_getElem, hgu, hgv] at hle
      refine lt_of_le_of_ne hle ?_
      intro hkeq
      have huv := keyfn_injective pd hkeq.symm
      exact absurd (hidx_of_eq huv) (Nat.ne_of_lt hij)
    · intro hlt
      by_contra hnij
      rcases Nat.lt_or_ge j i with hji | hge
      · have hle := List.Sorted.rel_get_of_lt hsorted
          (a := ⟨j, hj⟩) (b := ⟨i, hi⟩) hji
        simp only [List.get_eq_getElem, hgu, hgv] at hle
        exact absurd hle (not_le_of_lt hlt)
      · have hij : i = j := Nat.le_antisymm hge (Nat.le_of_not_lt hnij)
        have huv := heq_of_idx hij
        rw [huv] at hlt
        exact lt_irrefl _ hlt
  refine ⟨?_, main, ?_⟩
  · intro v
    rw [← hperm.mem_iff, List.mem_iff_getElem?]
    constructor
    · rintro ⟨i, hgi⟩
      exact ⟨i, (mem_pkg_version_rules pkgName pd v i).mpr hgi⟩
    · rintro ⟨i, hmem⟩
      exact ⟨i, (mem_pkg_version_rules pkgName pd v i).mp hmem⟩
  · intro d v i j hd hv hdd hvd hij
    have hlt := ((main d v i j hd hv).2.2).mp hij
    simp only [keyfn, hdd, hvd, Bool.not_true, Bool.not_false] at hlt
    rw [Prod.Lex.lt_iff] at hlt
    rw [Prod.Lex.lt_iff]
    simp only at hlt ⊢
    rcases hlt with h1 | ⟨h1, h2⟩
    · exact Or.inl h1
    · rw [Prod.Lex.lt_iff] at h2
      simp only at h2
      rcases h2 with h2 | ⟨h2, h3⟩
      · exact Or.inr ⟨h1, h2⟩
      · rw [Prod.Lex.lt_iff] at h3
        simp only at h3
        rcases h3 with h3 | ⟨h3, -⟩
        · exact absurd h3 (by decide)
        · exact absurd h3 (by decide)

/-- Witness for the C1 theorem at concrete inputs: with no preferences,
version 2 ranks before version 1, and the develop version ranks last. -/
theorem pkg_version_rules_spec_witness :
    (([⟨false, [.num 1]⟩, ⟨true, []⟩, ⟨false, [.num 2]⟩] :
        List SpkVersion).Nodup) ∧
    (∃ i, version_declared "python" ⟨false, [.num 2]⟩ i ∈
      pkg_version_rules "python" ⟨[], [], [⟨false, [.num 1]⟩, ⟨true, []⟩, ⟨false, [.num 2]⟩]⟩) :=
  ⟨by decide,
   ((pkg_version_rules_spec "python"
      ⟨[], [], [⟨false, [.num 1]⟩, ⟨true, []⟩, ⟨false, [.num 2]⟩]⟩ (by decide)).1
      ⟨false, [.num 2]⟩).mp (by decide)⟩

end SpackAsp
